import Mathlib

/-!
Shallow embedding of `src/iGadget.py` (class `ShapefileLoader`), the
"Inspecteur Gadget" QGIS dialog: a directory scanner for geospatial vector
files, with a filename filter, a colored progress bar, and a
load-selected-layers action.

Filenames, paths and user input are embedded as `List Char`.  Python's
`str.lower` is modelled by ASCII lowercasing (`Char.toLower`), which agrees
with Python on all inputs relevant to the claims.  The host application
(QGIS) is modelled by an oracle `Env`: `openGeom path` returns `some g`
when `QgsVectorLayer(path, _, "ogr").isValid()` and `g` is the
`QgsWkbTypes.displayString` of its wkb type, and `none` when the layer is
invalid.  `mtimeStr path` is the formatted modification date of the file.

`filter_files` (iGadget.py line 143) lowercases the search text, replaces
every `*` by `.*`, and calls Python `re.search` on the lowercased filename.
In the resulting regular expression every atom is either a literal
character, `.` (one arbitrary character, from a `.` typed by the user), or
`.*` (zero or more arbitrary characters, from a `*` typed by the user).
The matcher below (`Tok`, `matchHere`, `rsearch`) embeds Python
`re.search` for exactly this fragment; it is faithful for every search
text whose characters are `*`, `.` or non-metacharacters, which covers all
inputs the claims are about.
-/

namespace IGadget

/-- ASCII lowercasing of a character list, modelling Python `str.lower()`. -/
def lower (s : List Char) : List Char := s.map Char.toLower

/-- Regular-expression atoms occurring in the pattern that
`filter_files` hands to `re.search` after `lower().replace('*', '.*')`:
a literal character, `.` (any one character), or `.*` (any string). -/
inductive Tok where
  | lit : Char → Tok
  | dot : Tok
  | star : Tok
deriving DecidableEq

/-- Translation of the (already lowercased) search text into regex atoms:
a `*` typed by the user became `.*`, a `.` stays a `.` metacharacter, and
every other (non-metacharacter) character is a literal. -/
def tokenize (p : List Char) : List Tok :=
  p.map (fun c => if c = '*' then Tok.star else if c = '.' then Tok.dot else Tok.lit c)

/-- Fuel-indexed matcher: does the atom list match some prefix of the
string?  The fuel only makes the recursion structural; `matchHere`
applies it with enough fuel. -/
def matchHereF : Nat → List Tok → List Char → Bool
  | 0, _, _ => false
  | _ + 1, [], _ => true
  | _ + 1, Tok.lit _ :: _, [] => false
  | n + 1, Tok.lit c :: ps, x :: xs => (c == x) && matchHereF n ps xs
  | _ + 1, Tok.dot :: _, [] => false
  | n + 1, Tok.dot :: ps, _ :: xs => matchHereF n ps xs
  | n + 1, Tok.star :: ps, [] => matchHereF n ps []
  | n + 1, Tok.star :: ps, x :: xs =>
      matchHereF n ps (x :: xs) || matchHereF n (Tok.star :: ps) xs

/-- The atom list matches some prefix of the string. -/
def matchHere (ps : List Tok) (s : List Char) : Bool :=
  matchHereF (ps.length + s.length + 1) ps s

/-- Python `re.search`: the atom list matches at some position of the
string. -/
def rsearch (ps : List Tok) : List Char → Bool
  | [] => matchHere ps []
  | x :: xs => matchHere ps (x :: xs) || rsearch ps xs

theorem matchHereF_stable : ∀ n m ps s, ps.length + s.length < n →
    ps.length + s.length < m → matchHereF n ps s = matchHereF m ps s := by
  intro n
  induction n with
  | zero => intro m ps s h; omega
  | succ n ih =>
    intro m ps s hn hm
    match m with
    | 0 => omega
    | m + 1 =>
      match ps, s with
      | [], s => rfl
      | Tok.lit c :: ps, [] => rfl
      | Tok.lit c :: ps, x :: xs =>
        simp only [List.length_cons] at hn hm
        simp only [matchHereF]
        rw [ih m ps xs (by omega) (by omega)]
      | Tok.dot :: ps, [] => rfl
      | Tok.dot :: ps, x :: xs =>
        simp only [List.length_cons] at hn hm
        simp only [matchHereF]
        exact ih m ps xs (by omega) (by omega)
      | Tok.star :: ps, [] =>
        simp only [List.length_cons] at hn hm
        simp only [matchHereF]
        exact ih m ps [] (by omega) (by omega)
      | Tok.star :: ps, x :: xs =>
        simp only [List.length_cons] at hn hm
        simp only [matchHereF]
        rw [ih m ps (x :: xs) (by simp; omega) (by simp; omega),
          ih m (Tok.star :: ps) xs (by simp; omega) (by simp; omega)]

theorem matchHereF_eq_matchHere (n : Nat) (ps : List Tok) (s : List Char)
    (h : ps.length + s.length < n) : matchHereF n ps s = matchHere ps s :=
  matchHereF_stable n (ps.length + s.length + 1) ps s h (by omega)

theorem matchHere_nil_pat (s : List Char) : matchHere [] s = true := rfl

theorem matchHere_lit_nil (c : Char) (ps : List Tok) :
    matchHere (Tok.lit c :: ps) [] = false := rfl

theorem matchHere_lit_cons (c : Char) (ps : List Tok) (x : Char) (xs : List Char) :
    matchHere (Tok.lit c :: ps) (x :: xs) = ((c == x) && matchHere ps xs) := by
  simp only [matchHere, List.length_cons, matchHereF]
  exact congrArg (fun b => (c == x) && b)
    (matchHereF_stable _ _ ps xs (by omega) (by omega))

theorem matchHere_dot_nil (ps : List Tok) : matchHere (Tok.dot :: ps) [] = false := rfl

theorem matchHere_dot_cons (ps : List Tok) (x : Char) (xs : List Char) :
    matchHere (Tok.dot :: ps) (x :: xs) = matchHere ps xs := by
  simp only [matchHere, List.length_cons, matchHereF]
  exact matchHereF_stable _ _ ps xs (by omega) (by omega)

theorem matchHere_star_nil (ps : List Tok) :
    matchHere (Tok.star :: ps) [] = matchHere ps [] := by
  simp only [matchHere, List.length_cons, List.length_nil, matchHereF]

theorem matchHere_star_cons (ps : List Tok) (x : Char) (xs : List Char) :
    matchHere (Tok.star :: ps) (x :: xs) =
      (matchHere ps (x :: xs) || matchHere (Tok.star :: ps) xs) := by
  simp only [matchHere, List.length_cons, matchHereF]
  congr 1
  exact matchHereF_stable _ _ ps (x :: xs)
    (by simp only [List.length_cons]; omega) (by simp only [List.length_cons]; omega)

/-- Declarative semantics of an atom list: `TokMatch ps t` holds when the
atoms of `ps`, in order, match exactly the string `t`. -/
inductive TokMatch : List Tok → List Char → Prop where
  | nil : TokMatch [] []
  | lit (c : Char) (ps : List Tok) (t : List Char) :
      TokMatch ps t → TokMatch (Tok.lit c :: ps) (c :: t)
  | dot (c : Char) (ps : List Tok) (t : List Char) :
      TokMatch ps t → TokMatch (Tok.dot :: ps) (c :: t)
  | star (u : List Char) (ps : List Tok) (t : List Char) :
      TokMatch ps t → TokMatch (Tok.star :: ps) (u ++ t)

theorem TokMatch_nil_iff (t : List Char) : TokMatch [] t ↔ t = [] := by
  constructor
  · intro h; cases h; rfl
  · intro h; subst h; exact TokMatch.nil

theorem TokMatch_lit_iff (c : Char) (ps : List Tok) (t : List Char) :
    TokMatch (Tok.lit c :: ps) t ↔ ∃ v, t = c :: v ∧ TokMatch ps v := by
  constructor
  · intro h
    cases h with
    | lit _ _ v hv => exact ⟨v, rfl, hv⟩
  · rintro ⟨v, rfl, hv⟩
    exact TokMatch.lit c ps v hv

theorem TokMatch_dot_iff (ps : List Tok) (t : List Char) :
    TokMatch (Tok.dot :: ps) t ↔ ∃ c v, t = c :: v ∧ TokMatch ps v := by
  constructor
  · intro h
    cases h with
    | dot c _ v hv => exact ⟨c, v, rfl, hv⟩
  · rintro ⟨c, v, rfl, hv⟩
    exact TokMatch.dot c ps v hv

theorem TokMatch_star_iff (ps : List Tok) (t : List Char) :
    TokMatch (Tok.star :: ps) t ↔ ∃ u v, t = u ++ v ∧ TokMatch ps v := by
  constructor
  · intro h
    cases h with
    | star u _ v hv => exact ⟨u, v, rfl, hv⟩
  · rintro ⟨u, v, rfl, hv⟩
    exact TokMatch.star u ps v hv

/-- Soundness of the executable prefix matcher: a `true` answer yields a
decomposition of the string into a matched prefix and a remainder. -/
theorem matchHereF_sound : ∀ n ps s, matchHereF n ps s = true →
    ∃ t u, s = t ++ u ∧ TokMatch ps t := by
  intro n
  induction n with
  | zero => intro ps s h; simp [matchHereF] at h
  | succ n ih =>
    intro ps s h
    match ps, s with
    | [], s => exact ⟨[], s, rfl, TokMatch.nil⟩
    | Tok.lit c :: ps, [] => simp [matchHereF] at h
    | Tok.lit c :: ps, x :: xs =>
      simp only [matchHereF, Bool.and_eq_true, beq_iff_eq] at h
      obtain ⟨rfl, h2⟩ := h
      obtain ⟨t, u, rfl, ht⟩ := ih ps xs h2
      exact ⟨c :: t, u, rfl, TokMatch.lit c ps t ht⟩
    | Tok.dot :: ps, [] => simp [matchHereF] at h
    | Tok.dot :: ps, x :: xs =>
      simp only [matchHereF] at h
      obtain ⟨t, u, rfl, ht⟩ := ih ps xs h
      exact ⟨x :: t, u, rfl, TokMatch.dot x ps t ht⟩
    | Tok.star :: ps, [] =>
      simp only [matchHereF] at h
      obtain ⟨t, u, hsplit, ht⟩ := ih ps [] h
      obtain ⟨rfl, rfl⟩ := List.append_eq_nil.mp hsplit.symm
      exact ⟨[], [], rfl, TokMatch.star [] ps [] ht⟩
    | Tok.star :: ps, x :: xs =>
      simp only [matchHereF, Bool.or_eq_true] at h
      rcases h with h | h
      · obtain ⟨t, u, hsplit, ht⟩ := ih ps (x :: xs) h
        exact ⟨t, u, hsplit, TokMatch.star [] ps t ht⟩
      · obtain ⟨t, u, hsplit, ht⟩ := ih (Tok.star :: ps) xs h
        rcases (TokMatch_star_iff ps t).mp ht with ⟨u2, v, rfl, hv⟩
        refine ⟨x :: (u2 ++ v), u, ?_, ?_⟩
        · simp [hsplit, List.cons_append]
        · exact TokMatch.star (x :: u2) ps v hv

theorem matchHere_star_append (ps : List Tok) (y : List Char)
    (h : matchHere ps y = true) :
    ∀ v, matchHere (Tok.star :: ps) (v ++ y) = true := by
  intro v
  induction v with
  | nil =>
    match y with
    | [] => rw [List.nil_append, matchHere_star_nil]; exact h
    | c :: ys => rw [List.nil_append, matchHere_star_cons, h, Bool.true_or]
  | cons c v ih => rw [List.cons_append, matchHere_star_cons, ih, Bool.or_true]

/-- Completeness of the executable prefix matcher with respect to the
declarative semantics. -/
theorem TokMatch.matchHere_append {ps : List Tok} {t : List Char}
    (h : TokMatch ps t) : ∀ u, matchHere ps (t ++ u) = true := by
  induction h with
  | nil => intro u; exact matchHere_nil_pat u
  | lit c ps t _ht ih =>
    intro u
    rw [List.cons_append, matchHere_lit_cons, ih u, beq_self_eq_true, Bool.true_and]
  | dot c ps t _ht ih =>
    intro u
    rw [List.cons_append, matchHere_dot_cons]
    exact ih u
  | star v ps t _ht ih =>
    intro u
    rw [List.append_assoc]
    exact matchHere_star_append ps (t ++ u) (ih u) v

theorem matchHere_iff (ps : List Tok) (s : List Char) :
    matchHere ps s = true ↔ ∃ t u, s = t ++ u ∧ TokMatch ps t := by
  constructor
  · exact fun h => matchHereF_sound _ ps s h
  · rintro ⟨t, u, rfl, ht⟩
    exact ht.matchHere_append u

/-- `rsearch` is Python `re.search`: it succeeds exactly when the atom
list matches some contiguous segment of the string. -/
theorem rsearch_iff (ps : List Tok) (s : List Char) :
    rsearch ps s = true ↔ ∃ p t u, s = p ++ (t ++ u) ∧ TokMatch ps t := by
  induction s with
  | nil =>
    simp only [rsearch, matchHere_iff]
    constructor
    · rintro ⟨t, u, hsplit, ht⟩
      exact ⟨[], t, u, by simpa using hsplit, ht⟩
    · rintro ⟨p, t, u, hsplit, ht⟩
      obtain ⟨rfl, h2⟩ := List.append_eq_nil.mp hsplit.symm
      obtain ⟨rfl, rfl⟩ := List.append_eq_nil.mp h2
      exact ⟨[], [], rfl, ht⟩
  | cons x xs ih =>
    simp only [rsearch, Bool.or_eq_true, matchHere_iff, ih]
    constructor
    · rintro (⟨t, u, hsplit, ht⟩ | ⟨p, t, u, hsplit, ht⟩)
      · exact ⟨[], t, u, by simpa using hsplit, ht⟩
      · exact ⟨x :: p, t, u, by simp [hsplit], ht⟩
    · rintro ⟨p, t, u, hsplit, ht⟩
      match p with
      | [] => exact Or.inl ⟨t, u, by simpa using hsplit, ht⟩
      | y :: p =>
        right
        refine ⟨p, t, u, ?_, ht⟩
        simpa using List.tail_eq_of_cons_eq hsplit

/-- Python regex metacharacters that the user's search text could contain
besides `*` (which `filter_files` rewrites to `.*`).  A search text is
"plain" when it avoids them all; on plain texts the translated pattern
treats every character other than `*` literally. -/
def plainChar (c : Char) : Bool :=
  !(c == '.' || c == '\\' || c == '+' || c == '?' || c == '(' || c == ')' ||
    c == '[' || c == ']' || c == '\x7b' || c == '\x7d' || c == '^' || c == '$' ||
    c == '|')

def cleanPat (p : List Char) : Bool := p.all (fun c => c == '*' || plainChar c)

/-- The claim-side pattern semantics, modelled from the spec's words:
`*` matches zero or more arbitrary characters and every other character
of the input matches itself literally. -/
inductive WildMatch : List Char → List Char → Prop where
  | nil : WildMatch [] []
  | lit (c : Char) (p t : List Char) :
      c ≠ '*' → WildMatch p t → WildMatch (c :: p) (c :: t)
  | star (u : List Char) (p t : List Char) :
      WildMatch p t → WildMatch ('*' :: p) (u ++ t)

theorem WildMatch_nil_iff (t : List Char) : WildMatch [] t ↔ t = [] := by
  constructor
  · intro h; cases h; rfl
  · intro h; subst h; exact WildMatch.nil

theorem WildMatch_lit_iff (c : Char) (p t : List Char) (hc : c ≠ '*') :
    WildMatch (c :: p) t ↔ ∃ v, t = c :: v ∧ WildMatch p v := by
  constructor
  · intro h
    cases h with
    | lit _ _ v _ hv => exact ⟨v, rfl, hv⟩
    | star u _ v hv => exact absurd rfl hc
  · rintro ⟨v, rfl, hv⟩
    exact WildMatch.lit c p v hc hv

theorem WildMatch_star_iff (p t : List Char) :
    WildMatch ('*' :: p) t ↔ ∃ u v, t = u ++ v ∧ WildMatch p v := by
  constructor
  · intro h
    cases h with
    | lit _ _ v hne hv => exact absurd rfl hne
    | star u _ v hv => exact ⟨u, v, rfl, hv⟩
  · rintro ⟨u, v, rfl, hv⟩
    exact WildMatch.star u p v hv

/-- On a plain search text, the regex atoms produced by `filter_files`'s
translation mean exactly what the spec says: `*` is "zero or more
arbitrary characters" and everything else is literal. -/
theorem tokMatch_tokenize_iff (p : List Char) (hp : cleanPat p = true) :
    ∀ t, TokMatch (tokenize p) t ↔ WildMatch p t := by
  induction p with
  | nil =>
    intro t
    simp only [tokenize, List.map_nil, TokMatch_nil_iff, WildMatch_nil_iff]
  | cons c p ih =>
    simp only [cleanPat, List.all_cons, Bool.and_eq_true] at hp
    obtain ⟨hc, hp⟩ := hp
    have ih' := ih hp
    intro t
    by_cases hstar : c = '*'
    · subst hstar
      show TokMatch (Tok.star :: tokenize p) t ↔ WildMatch ('*' :: p) t
      rw [TokMatch_star_iff, WildMatch_star_iff]
      constructor
      · rintro ⟨u, v, rfl, hv⟩; exact ⟨u, v, rfl, (ih' v).mp hv⟩
      · rintro ⟨u, v, rfl, hv⟩; exact ⟨u, v, rfl, (ih' v).mpr hv⟩
    · have hdot : c ≠ '.' := by
        rcases Bool.or_eq_true _ _ |>.mp hc with h | h
        · exact absurd (by simpa using h) hstar
        · simp only [plainChar, Bool.not_eq_true', Bool.or_eq_false_iff, beq_eq_false_iff_ne,
            ne_eq] at h
          exact h.1.1.1.1.1.1.1.1.1.1.1.1
      simp only [tokenize, List.map_cons, if_neg hstar, if_neg hdot]
      rw [TokMatch_lit_iff, WildMatch_lit_iff c p t hstar]
      constructor
      · rintro ⟨v, rfl, hv⟩; exact ⟨v, rfl, (ih' v).mp hv⟩
      · rintro ⟨v, rfl, hv⟩; exact ⟨v, rfl, (ih' v).mpr hv⟩

/-- The filter predicate of `filter_files` (iGadget.py lines 145-149):
lowercase the search text, replace `*` by `.*`, and run `re.search`
against the lowercased filename. -/
def filterKeeps (input name : List Char) : Bool :=
  rsearch (tokenize (lower input)) (lower name)

/-- Modelled from the spec's words: the filename matches the search text
case-insensitively, where `*` means zero or more arbitrary characters,
every other character is matched literally, and the pattern may occur
anywhere inside the filename (substring semantics). -/
def specDisplayed (input name : List Char) : Prop :=
  ∃ p t u, lower name = p ++ (t ++ u) ∧ WildMatch (lower input) t

theorem filterKeeps_iff (input name : List Char)
    (hclean : cleanPat (lower input) = true) :
    filterKeeps input name = true ↔ specDisplayed input name := by
  rw [filterKeeps, rsearch_iff, specDisplayed]
  constructor
  · rintro ⟨p, t, u, hsplit, ht⟩
    exact ⟨p, t, u, hsplit, (tokMatch_tokenize_iff _ hclean t).mp ht⟩
  · rintro ⟨p, t, u, hsplit, ht⟩
    exact ⟨p, t, u, hsplit, (tokMatch_tokenize_iff _ hclean t).mpr ht⟩

theorem filterKeeps_nil (name : List Char) : filterKeeps [] name = true := by
  rw [filterKeeps]
  show rsearch [] (lower name) = true
  match h : lower name with
  | [] => rw [rsearch, matchHere_nil_pat]
  | c :: cs => rw [rsearch, matchHere_nil_pat, Bool.true_or]

/-- A pattern without `*` matches only itself under the spec semantics. -/
theorem wildMatch_all_lit (p t : List Char) (h : ∀ c ∈ p, c ≠ '*') :
    WildMatch p t → t = p := by
  intro hw
  induction hw with
  | nil => rfl
  | lit c q v hne _hv ih =>
    rw [ih (fun d hd => h d (List.mem_cons_of_mem c hd))]
  | star u q v _hv _ih =>
    exact absurd rfl (h '*' (List.mem_cons_self '*' q))

/-- One metadata record of the scan, the `file_info` dict built at
iGadget.py lines 107-114. -/
structure FileInfo where
  file : List Char
  file_path : List Char
  file_mtime : List Char
  root : List Char
  geometry_type : List Char
  file_extension : List Char
deriving DecidableEq

/-- Qt tri-state checkbox state of a table row; `item.checkState(0)`
returns 0, 1 or 2, and `load_selected_layers` tests for 2 (`checked`). -/
inductive CheckState where
  | unchecked
  | partiallyChecked
  | checked
deriving DecidableEq

/-- Oracle for the host application and the filesystem.
`openGeom path` is `some g` when `QgsVectorLayer(path, _, "ogr")` is
valid, `g` being `QgsWkbTypes.displayString` of the layer's wkb type, and
`none` when the open fails.  `mtimeStr path` is the formatted
modification date `datetime.fromtimestamp(getmtime(path)).strftime('%Y-%m-%d')`. -/
structure Env where
  openGeom : List Char → Option (List Char)
  mtimeStr : List Char → List Char

/-- The allow-list of iGadget.py line 87; note the dot-less last entry. -/
def supported_extensions : List (List Char) :=
  [".shp".data, ".gpkg".data, ".geojson".data, ".kml".data, ".csv".data,
    ".xlsx".data, ".xls".data, "dbf".data]

/-- `any(file.endswith(ext) for ext in supported_extensions)` at line 91. -/
def matches_extension (file : List Char) : Bool :=
  supported_extensions.any (fun ext => ext.isSuffixOf file)

/-- The collect pass of `list_shapefiles` (lines 88-92): walk the tree
and gather the matching (root, filename) pairs in visit order.  A walk is
embedded as the list of `(root, files)` pairs `os.walk` yields (the
`dirs` component is unused by the code). -/
def files_to_process : List (List Char × List (List Char)) → List (List Char × List Char)
  | [] => []
  | e :: rest =>
      (e.2.filter matches_extension).map (fun f => (e.1, f)) ++ files_to_process rest

/-- `os.path.join(root, file)` for POSIX paths (two arguments). -/
def joinPath (r f : List Char) : List Char :=
  if f.head? = some '/' then f
  else if r = [] ∨ r.getLast? = some '/' then r ++ f
  else r ++ '/' :: f

/-- `os.path.basename`: everything after the last path separator. -/
def basename (p : List Char) : List Char :=
  (p.reverse.takeWhile (fun c => !(c == '/'))).reverse

/-- The part of the name from the last dot onwards, if any dot exists:
`(stem-before-last-dot, suffix-from-last-dot)`. -/
def afterLastDot : List Char → Option (List Char × List Char)
  | [] => none
  | c :: rest =>
      match afterLastDot rest with
      | some (st, ex) => some (c :: st, ex)
      | none => if c = '.' then some ([], c :: rest) else none

/-- `os.path.splitext(file)[1]` for a separator-free filename (the names
yielded by `os.walk` contain no separator): the suffix from the last dot,
unless every character before that dot is itself a dot. -/
def splitext_ext (p : List Char) : List Char :=
  match afterLastDot p with
  | none => []
  | some (st, ex) => if st.all (fun c => c == '.') then [] else ex

/-- The metadata-extraction step for one matched `(root, file)` pair,
lines 97-114: join the path, read the date, split the extension, and look
up the geometry type only when the option is on and the extension is
exactly `.shp`; an invalid layer silently leaves the label empty. -/
def process_file (env : Env) (show_geometry_type : Bool)
    (rf : List Char × List Char) : FileInfo :=
  let file_path := joinPath rf.1 rf.2
  let file_extension := splitext_ext rf.2
  { file := rf.2
    file_path := file_path
    file_mtime := env.mtimeStr file_path
    root := rf.1
    geometry_type :=
      if show_geometry_type && (file_extension == ".shp".data) then
        match env.openGeom file_path with
        | some g => g
        | none => []
      else []
    file_extension := file_extension }

/-- The three chunk colors of `update_progress_bar_color`. -/
inductive Color where
  | red
  | yellow
  | green
deriving DecidableEq

/-- `update_progress_bar_color` (lines 132-141): percentage of processed
files, classified below 50 / below 80 / otherwise.  Python's float
arithmetic is modelled by exact rational arithmetic. -/
def update_progress_bar_color (value total : Nat) : Color :=
  let percentage : ℚ := ((value : ℚ) / (total : ℚ)) * 100
  if percentage < 50 then Color.red
  else if percentage < 80 then Color.yellow
  else Color.green

/-- One progress-bar update emitted after a file is processed
(lines 119-122): the bar value, the `index+1/total` counts of the format
text, the percentage, and the chunk color. -/
structure Progress where
  value : Nat
  total : Nat
  percentage : ℚ
  color : Color
deriving DecidableEq

def progress_update (value total : Nat) : Progress :=
  { value := value
    total := total
    percentage := ((value : ℚ) / (total : ℚ)) * 100
    color := update_progress_bar_color value total }

/-- The dialog's data state: `self.all_files` (line 74, the source of
truth) and the rows currently shown in `self.file_list`, each with its
checkbox state (`add_file_item` creates every row unchecked, line 129). -/
structure AppState where
  all_files : List FileInfo
  displayed : List (FileInfo × CheckState)
deriving DecidableEq

/-- Result of a `list_shapefiles` run: the rebuilt state, the emitted
progress updates in order, and the value given to
`progress_bar.setMaximum` (line 95). -/
structure ScanOut where
  state : AppState
  progress : List Progress
  progressMax : Nat
deriving DecidableEq

/-- `list_shapefiles` (lines 82-122): clear both the table and
`all_files`, collect all matching pairs, then process them in order,
appending each record to `all_files` and to the table (unchecked) and
emitting one progress update per file against the pre-computed total. -/
def list_shapefiles (env : Env) (show_geometry_type : Bool)
    (walk : List (List Char × List (List Char))) : ScanOut :=
  let files := files_to_process walk
  let total := files.length
  let records := files.map (process_file env show_geometry_type)
  { state :=
      { all_files := records
        displayed := records.map (fun fi => (fi, CheckState.unchecked)) }
    progress := (List.range total).map (fun index => progress_update (index + 1) total)
    progressMax := total }

/-- `filter_files` (lines 143-150): recompute the displayed rows from
`all_files`, keeping the records whose filename matches the translated
search text; every re-added row gets a fresh unchecked checkbox. -/
def filter_files (input : List Char) (st : AppState) : AppState :=
  { all_files := st.all_files
    displayed := (st.all_files.filter (fun fi => filterKeeps input fi.file)).map
      (fun fi => (fi, CheckState.unchecked)) }

/-- `load_selected_layers` (lines 152-162) over the displayed rows:
for each fully-checked row, open the stored path with its basename as
label; a valid layer is added to the project, an invalid one prints the
path to the console and the loop continues.  Returns the registered
`(path, label)` layers and the reported failure paths, in row order. -/
def load_selected_layers (env : Env) :
    List (FileInfo × CheckState) → List (List Char × List Char) × List (List Char)
  | [] => ([], [])
  | row :: rest =>
      let r := load_selected_layers env rest
      if row.2 = CheckState.checked then
        match env.openGeom row.1.file_path with
        | some _ => ((row.1.file_path, basename row.1.file_path) :: r.1, r.2)
        | none => (r.1, row.1.file_path :: r.2)
      else r

theorem map_fst_pair (l : List FileInfo) :
    (l.map (fun fi => (fi, CheckState.unchecked))).map Prod.fst = l := by
  induction l with
  | nil => rfl
  | cons a l ih => simp only [List.map_cons, ih]

theorem map_fst_pair_comp (l : List FileInfo) :
    List.map (Prod.fst ∘ fun fi => (fi, CheckState.unchecked)) l = l := by
  induction l with
  | nil => rfl
  | cons a l ih => simp only [List.map_cons, ih, Function.comp_apply]

theorem mem_files_to_process (walk : List (List Char × List (List Char)))
    (r f : List Char) :
    (r, f) ∈ files_to_process walk ↔
      ∃ e ∈ walk, e.1 = r ∧ f ∈ e.2 ∧ matches_extension f = true := by
  induction walk with
  | nil => simp [files_to_process]
  | cons e rest ih =>
    simp only [files_to_process, List.mem_append, ih, List.mem_map, List.mem_filter,
      List.mem_cons, Prod.mk.injEq]
    constructor
    · rintro (⟨g, ⟨hg2, hgm⟩, rfl, rfl⟩ | ⟨e2, he2, h1, h2, h3⟩)
      · exact ⟨e, Or.inl rfl, rfl, hg2, hgm⟩
      · exact ⟨e2, Or.inr he2, h1, h2, h3⟩
    · rintro ⟨e2, (rfl | he2), rfl, hf2, hfm⟩
      · exact Or.inl ⟨f, ⟨hf2, hfm⟩, rfl, rfl⟩
      · exact Or.inr ⟨e2, he2, rfl, hf2, hfm⟩

/-- C1: a file reaches the scan's collection exactly when it was visited
by the walk and its name ends (case-sensitively) with one of the eight
allow-listed suffixes; the dot-less `dbf` entry makes `report.dbf` and
`mydbf` match while `notadbf.txt` does not. -/
theorem c1_extension_allowlist :
    (∀ walk r f, (r, f) ∈ files_to_process walk ↔
      ((∃ e ∈ walk, e.1 = r ∧ f ∈ e.2) ∧ matches_extension f = true))
    ∧ (∀ f, matches_extension f = true ↔ ∃ ext ∈ supported_extensions, ext <:+ f)
    ∧ matches_extension "report.dbf".data = true
    ∧ matches_extension "mydbf".data = true
    ∧ matches_extension "notadbf.txt".data = false := by
  refine ⟨?_, ?_, by decide, by decide, by decide⟩
  · intro walk r f
    rw [mem_files_to_process]
    constructor
    · rintro ⟨e, he, h1, h2, h3⟩; exact ⟨⟨e, he, h1, h2⟩, h3⟩
    · rintro ⟨⟨e, he, h1, h2⟩, h3⟩; exact ⟨e, he, h1, h2, h3⟩
  · intro f
    simp [matches_extension, List.any_eq_true, List.isSuffixOf_iff_suffix]

/-- C3: filtering then clearing the filter text restores exactly the
full record list in scan order, filtering twice equals filtering once,
and after a scan the displayed rows are exactly the full record list. -/
theorem c3_filter_restore_idempotent :
    (∀ st input,
      (filter_files [] (filter_files input st)).displayed.map Prod.fst = st.all_files
      ∧ (filter_files input (filter_files input st)).displayed
          = (filter_files input st).displayed)
    ∧ (∀ env sg walk,
      (list_shapefiles env sg walk).state.displayed.map Prod.fst
        = (list_shapefiles env sg walk).state.all_files) := by
  have hfilter : ∀ l : List FileInfo,
      l.filter (fun fi => filterKeeps [] fi.file) = l :=
    fun l => List.filter_eq_self.mpr (fun a _ => filterKeeps_nil a.file)
  constructor
  · intro st input
    constructor
    · simp [filter_files, hfilter, map_fst_pair, map_fst_pair_comp]
    · rfl
  · intro env sg walk
    simp [list_shapefiles, map_fst_pair, map_fst_pair_comp]

/-- C4: the displayed rows are always a filtered projection of
`all_files`; `filter_files` leaves the source collection untouched, and
the rows it or a scan displays form a sublist (same order, no invention)
of the source collection. -/
theorem c4_projection_invariant :
    (∀ st input,
      (filter_files input st).all_files = st.all_files
      ∧ ((filter_files input st).displayed.map Prod.fst).Sublist st.all_files)
    ∧ (∀ env sg walk,
      ((list_shapefiles env sg walk).state.displayed.map Prod.fst).Sublist
        (list_shapefiles env sg walk).state.all_files) := by
  constructor
  · intro st input
    refine ⟨rfl, ?_⟩
    have hmap : (filter_files input st).displayed.map Prod.fst
        = st.all_files.filter (fun fi => filterKeeps input fi.file) := by
      simp [filter_files, map_fst_pair, map_fst_pair_comp]
    rw [hmap]
    exact List.filter_sublist st.all_files
  · intro env sg walk
    have hmap : (list_shapefiles env sg walk).state.displayed.map Prod.fst
        = (list_shapefiles env sg walk).state.all_files := by
      simp [list_shapefiles, map_fst_pair, map_fst_pair_comp]
    rw [hmap]

/-- C5: with `total ≥ 1` and `1 ≤ value ≤ total`, the chunk color is red
exactly below 50% of the total, yellow exactly from 50% (inclusive) to
80% (exclusive), and green exactly from 80% (inclusive). -/
theorem c5_progress_color_tiers (total value : Nat) (htot : 1 ≤ total)
    (hv1 : 1 ≤ value) (hv2 : value ≤ total) :
    (update_progress_bar_color value total = Color.red ↔
        (value : ℚ) < 0.5 * total)
    ∧ (update_progress_bar_color value total = Color.yellow ↔
        (0.5 * (total : ℚ) ≤ value ∧ (value : ℚ) < 0.8 * total))
    ∧ (update_progress_bar_color value total = Color.green ↔
        0.8 * (total : ℚ) ≤ value) := by
  have htQ : (0 : ℚ) < total := by exact_mod_cast Nat.lt_of_lt_of_le Nat.zero_lt_one htot
  have h50 : ((value : ℚ) / total * 100 < 50) ↔ ((value : ℚ) < 0.5 * total) := by
    rw [div_mul_eq_mul_div, div_lt_iff htQ]
    constructor <;> intro h <;> linarith
  have h80 : ((value : ℚ) / total * 100 < 80) ↔ ((value : ℚ) < 0.8 * total) := by
    rw [div_mul_eq_mul_div, div_lt_iff htQ]
    constructor <;> intro h <;> linarith
  simp only [update_progress_bar_color]
  split_ifs with hA hB
  · have hv : (value : ℚ) < 0.5 * total := h50.mp hA
    exact ⟨⟨fun _ => hv, fun _ => rfl⟩,
      ⟨fun h => absurd h (by decide), fun h => absurd hv (not_lt.mpr h.1)⟩,
      ⟨fun h => absurd h (by decide), fun h => False.elim (by linarith)⟩⟩
  · have hge : 0.5 * (total : ℚ) ≤ value := not_lt.mp (fun hcon => hA (h50.mpr hcon))
    have hlt : (value : ℚ) < 0.8 * total := h80.mp hB
    exact ⟨⟨fun h => absurd h (by decide), fun h => absurd hge (not_le.mpr h)⟩,
      ⟨fun _ => ⟨hge, hlt⟩, fun _ => rfl⟩,
      ⟨fun h => absurd h (by decide), fun h => False.elim (by linarith)⟩⟩
  · have hge : 0.8 * (total : ℚ) ≤ value := not_lt.mp (fun hcon => hB (h80.mpr hcon))
    exact ⟨⟨fun h => absurd h (by decide), fun h => False.elim (by linarith)⟩,
      ⟨fun h => absurd h (by decide), fun h => False.elim (by linarith [h.1, h.2])⟩,
      ⟨fun _ => hge, fun _ => rfl⟩⟩

theorem c5_progress_color_tiers_witness :
    update_progress_bar_color 4 5 = Color.green
    ∧ update_progress_bar_color 2 4 = Color.yellow :=
  ⟨(c5_progress_color_tiers 5 4 (by norm_num) (by norm_num) (by norm_num)).2.2.mpr
      (by norm_num),
    (c5_progress_color_tiers 4 2 (by norm_num) (by norm_num) (by norm_num)).2.1.mpr
      (by norm_num)⟩

/-- C2 (amended): for search texts whose lowercased characters contain no
regex metacharacter other than `*`, a record is displayed by
`filter_files` exactly when its filename matches the text
case-insensitively with `*` meaning zero or more arbitrary characters,
every other character matched literally, and substring (search)
semantics; the empty input is such a text and matches every filename.
For texts containing another metacharacter the code instead gives that
character its regex meaning (see the counterexample). -/
theorem c2_filter_wildcard_semantics (st : AppState) (input : List Char)
    (fi : FileInfo) (hclean : cleanPat (lower input) = true)
    (hmem : fi ∈ st.all_files) :
    (fi, CheckState.unchecked) ∈ (filter_files input st).displayed ↔
      specDisplayed input fi.file := by
  simp only [filter_files, List.mem_map, List.mem_filter, Prod.mk.injEq]
  constructor
  · rintro ⟨g, ⟨_hg, hk⟩, rfl, -⟩
    exact (filterKeeps_iff _ _ hclean).mp hk
  · intro hs
    exact ⟨fi, ⟨hmem, (filterKeeps_iff _ _ hclean).mpr hs⟩, rfl, trivial⟩

def c2WitnessRec : FileInfo :=
  { file := "PARCELS.SHP".data, file_path := "d/PARCELS.SHP".data, file_mtime := [],
    root := "d".data, geometry_type := [], file_extension := ".SHP".data }

def c2WitnessState : AppState := { all_files := [c2WitnessRec], displayed := [] }

theorem c2_filter_wildcard_semantics_witness :
    cleanPat (lower "shp".data) = true
    ∧ c2WitnessRec ∈ c2WitnessState.all_files
    ∧ ((c2WitnessRec, CheckState.unchecked) ∈
          (filter_files "shp".data c2WitnessState).displayed ↔
        specDisplayed "shp".data c2WitnessRec.file) :=
  ⟨by decide, by decide,
    c2_filter_wildcard_semantics c2WitnessState "shp".data c2WitnessRec
      (by decide) (by decide)⟩

def c2CexRec : FileInfo :=
  { file := "axb".data, file_path := "d/axb".data, file_mtime := [],
    root := "d".data, geometry_type := [], file_extension := [] }

def c2CexState : AppState := { all_files := [c2CexRec], displayed := [] }

/-- C2 counterexample: with search text `a.b` the code displays the file
named `axb` — the untouched `.` is a regex metacharacter matching any
character under `re.search` — while the claim's semantics (every non-`*`
character matched literally) rejects that filename, so the displayed-iff
claim is false as stated. -/
theorem c2_filter_literal_counterexample :
    ((c2CexRec, CheckState.unchecked) ∈
      (filter_files "a.b".data c2CexState).displayed)
    ∧ ¬ specDisplayed "a.b".data "axb".data := by
  constructor
  · decide
  · rintro ⟨pre, t, u, hsplit, hw⟩
    have hmid : t = lower "a.b".data := wildMatch_all_lit _ _ (by decide) hw
    subst hmid
    have hlow : lower "axb".data = ['a', 'x', 'b'] := by decide
    have hlow2 : lower "a.b".data = ['a', '.', 'b'] := by decide
    rw [hlow, hlow2] at hsplit
    have hlen := congrArg List.length hsplit
    simp only [List.length_append, List.length_cons, List.length_nil] at hlen
    obtain ⟨hp, hu⟩ : pre = [] ∧ u = [] :=
      ⟨List.length_eq_zero.mp (by omega), List.length_eq_zero.mp (by omega)⟩
    subst hp; subst hu
    simp only [List.nil_append, List.append_nil] at hsplit
    exact absurd hsplit (by decide)

/-- C6: the geometry-type label of a scanned record is non-empty only
when the option is enabled, the extension is exactly `.shp`, and the host
open succeeds; if the option is off, the extension differs, or the open
fails, the label is the empty string — the failed open produces a record
all the same, never an error. -/
theorem c6_geometry_type_label (env : Env) (sg : Bool) (root file : List Char) :
    ((process_file env sg (root, file)).geometry_type ≠ [] →
      sg = true
      ∧ (process_file env sg (root, file)).file_extension = ".shp".data
      ∧ ∃ g, env.openGeom (joinPath root file) = some g)
    ∧ ((sg = false ∨ splitext_ext file ≠ ".shp".data
          ∨ env.openGeom (joinPath root file) = none) →
      (process_file env sg (root, file)).geometry_type = []) := by
  simp only [process_file]
  by_cases hcond : (sg && (splitext_ext file == ".shp".data)) = true
  · obtain ⟨hsg, hext⟩ := Bool.and_eq_true _ _ |>.mp hcond
    have hext' : splitext_ext file = ".shp".data := by simpa using hext
    cases hopen : env.openGeom (joinPath root file) with
    | some g =>
      constructor
      · intro _hne
        exact ⟨hsg, by simpa using hext', g, by simpa [hcond, hopen]⟩
      · rintro (h | h | h)
        · simp [h] at hsg
        · exact absurd hext' h
        · simp [hopen] at h
    | none =>
      constructor
      · intro hne
        exact absurd (by simp [hcond, hopen]) hne
      · intro _h
        simp [hcond, hopen]
  · have hcond' : (sg && (splitext_ext file == ".shp".data)) = false :=
      Bool.not_eq_true _ |>.mp hcond
    constructor
    · intro hne
      exact absurd (by simp [hcond']) hne
    · intro _h
      simp [hcond']

def envNone : Env := { openGeom := fun _ => none, mtimeStr := fun _ => [] }

theorem c6_geometry_type_label_witness :
    (process_file envNone true ("d".data, "a.shp".data)).geometry_type = [] :=
  (c6_geometry_type_label envNone true "d".data "a.shp".data).2
    (Or.inr (Or.inr rfl))

theorem load_selected_spec (env : Env) (rows : List (FileInfo × CheckState)) :
    (load_selected_layers env rows).1
      = (rows.filter (fun row => row.2 == CheckState.checked
            && (env.openGeom row.1.file_path).isSome)).map
          (fun row => (row.1.file_path, basename row.1.file_path))
    ∧ (load_selected_layers env rows).2
      = (rows.filter (fun row => row.2 == CheckState.checked
            && (env.openGeom row.1.file_path).isNone)).map
          (fun row => row.1.file_path) := by
  induction rows with
  | nil => exact ⟨rfl, rfl⟩
  | cons row rest ih =>
    by_cases hc : row.2 = CheckState.checked
    · cases hg : env.openGeom row.1.file_path with
      | some g =>
        simp [load_selected_layers, hc, hg, List.filter_cons, ih.1, ih.2]
      | none =>
        simp [load_selected_layers, hc, hg, List.filter_cons, ih.1, ih.2]
    · simp [load_selected_layers, hc, List.filter_cons, ih.1, ih.2, beq_iff_eq]

/-- C7: `load_selected_layers` registers, in row order, exactly the
fully-checked rows whose open succeeds — each as the pair of its stored
path and the path's basename used as display label — and reports to the
console exactly the paths of the fully-checked rows whose open fails;
unchecked and partially-checked rows are skipped, and a failure neither
stops later rows from loading nor removes earlier registered layers. -/
theorem c7_load_selected_batch : ∀ (env : Env) (rows : List (FileInfo × CheckState)),
    (load_selected_layers env rows).1
      = (rows.filter (fun row => row.2 == CheckState.checked
            && (env.openGeom row.1.file_path).isSome)).map
          (fun row => (row.1.file_path, basename row.1.file_path))
    ∧ (load_selected_layers env rows).2
      = (rows.filter (fun row => row.2 == CheckState.checked
            && (env.openGeom row.1.file_path).isNone)).map
          (fun row => row.1.file_path) :=
  fun env rows => load_selected_spec env rows

/-- C8: the scan collects the complete ordered list of matching pairs
first and only then processes it: the records are the matched pairs in
order, there is one progress update per matched file, and every update
carries the final matched-file count as its total. -/
theorem c8_two_pass (env : Env) (sg : Bool)
    (walk : List (List Char × List (List Char))) :
    (list_shapefiles env sg walk).state.all_files
      = (files_to_process walk).map (process_file env sg)
    ∧ (list_shapefiles env sg walk).progress
      = (List.range (files_to_process walk).length).map
          (fun index => progress_update (index + 1) (files_to_process walk).length)
    ∧ (∀ p ∈ (list_shapefiles env sg walk).progress,
        p.total = (list_shapefiles env sg walk).state.all_files.length) := by
  refine ⟨rfl, rfl, ?_⟩
  intro p hp
  simp only [list_shapefiles, List.mem_map, List.mem_range] at hp
  obtain ⟨i, _hi, rfl⟩ := hp
  simp [progress_update, list_shapefiles, List.length_map]

def c8Walk : List (List Char × List (List Char)) := [("d".data, ["a.shp".data])]

theorem c8_two_pass_witness :
    (progress_update 1 1).total
      = (list_shapefiles envNone false c8Walk).state.all_files.length := by
  refine (c8_two_pass envNone false c8Walk).2.2 (progress_update 1 1) ?_
  have hlist : (list_shapefiles envNone false c8Walk).progress
      = [progress_update 1 1] := rfl
  rw [hlist]
  exact List.mem_singleton_self _

theorem files_to_process_eq_nil (walk : List (List Char × List (List Char)))
    (h : ∀ e ∈ walk, ∀ f ∈ e.2, matches_extension f = false) :
    files_to_process walk = [] := by
  induction walk with
  | nil => rfl
  | cons e rest ih =>
    have h1 : e.2.filter matches_extension = [] :=
      List.filter_eq_nil.mpr (fun f hf => by
        simp [h e (List.mem_cons_self e rest) f hf])
    simp [files_to_process, h1,
      ih (fun e2 he2 => h e2 (List.mem_cons_of_mem e he2))]

/-- C9: a scan in which no visited file matches the allow-list completes
with an empty record collection, an empty table and no progress update at
all — in particular the per-file percentage computation, which divides by
the total, is never reached when the total is zero. -/
theorem c9_empty_scan (env : Env) (sg : Bool)
    (walk : List (List Char × List (List Char)))
    (h : ∀ e ∈ walk, ∀ f ∈ e.2, matches_extension f = false) :
    (list_shapefiles env sg walk).state.all_files = []
    ∧ (list_shapefiles env sg walk).state.displayed = []
    ∧ (list_shapefiles env sg walk).progress = []
    ∧ (list_shapefiles env sg walk).progressMax = 0 := by
  have h0 := files_to_process_eq_nil walk h
  simp [list_shapefiles, h0]

def c9Walk : List (List Char × List (List Char)) :=
  [("d".data, ["notadbf.txt".data, "readme.md".data])]

theorem c9_empty_scan_witness :
    (list_shapefiles envNone false c9Walk).progress = [] :=
  (c9_empty_scan envNone false c9Walk (by decide)).2.2.1

/-- C10: the load-selected action draws only from the rows present in the
table: every registered layer and every console-reported failure path —
the two possible traces of an attempted open — stems from a displayed,
fully-checked row; consequently, after a filter is applied (and the user
has set whatever checkboxes on the visible rows), a record that the
filter hides — and whose path no other record shares — is not opened at
all: its path appears neither among the registered layers nor among the
reported failures. -/
theorem c10_load_displayed_only :
    (∀ (env : Env) (rows : List (FileInfo × CheckState))
        (l : List Char × List Char), l ∈ (load_selected_layers env rows).1 →
      ∃ row, row ∈ rows ∧ row.2 = CheckState.checked
        ∧ l = (row.1.file_path, basename row.1.file_path))
    ∧ (∀ (env : Env) (rows : List (FileInfo × CheckState))
        (m : List Char), m ∈ (load_selected_layers env rows).2 →
      ∃ row, row ∈ rows ∧ row.2 = CheckState.checked ∧ m = row.1.file_path)
    ∧ (∀ (env : Env) (st : AppState) (input : List Char)
        (ck : FileInfo → CheckState) (fi : FileInfo),
      filterKeeps input fi.file = false →
      (∀ g ∈ st.all_files, g.file_path = fi.file_path → g = fi) →
      (∀ l ∈ (load_selected_layers env
          ((filter_files input st).displayed.map (fun row => (row.1, ck row.1)))).1,
        l.1 ≠ fi.file_path)
      ∧ (∀ m ∈ (load_selected_layers env
          ((filter_files input st).displayed.map (fun row => (row.1, ck row.1)))).2,
        m ≠ fi.file_path)) := by
  have part1 : ∀ (env : Env) (rows : List (FileInfo × CheckState))
      (l : List Char × List Char), l ∈ (load_selected_layers env rows).1 →
      ∃ row, row ∈ rows ∧ row.2 = CheckState.checked
        ∧ l = (row.1.file_path, basename row.1.file_path) := by
    intro env rows l hl
    rw [(load_selected_spec env rows).1] at hl
    simp only [List.mem_map, List.mem_filter, Bool.and_eq_true, beq_iff_eq] at hl
    obtain ⟨row, ⟨hmem, hchk, _⟩, rfl⟩ := hl
    exact ⟨row, hmem, hchk, rfl⟩
  have part2 : ∀ (env : Env) (rows : List (FileInfo × CheckState))
      (m : List Char), m ∈ (load_selected_layers env rows).2 →
      ∃ row, row ∈ rows ∧ row.2 = CheckState.checked ∧ m = row.1.file_path := by
    intro env rows m hm
    rw [(load_selected_spec env rows).2] at hm
    simp only [List.mem_map, List.mem_filter, Bool.and_eq_true, beq_iff_eq] at hm
    obtain ⟨row, ⟨hmem, hchk, _⟩, rfl⟩ := hm
    exact ⟨row, hmem, hchk, rfl⟩
  have hrow_src : ∀ (st : AppState) (input : List Char)
      (ck : FileInfo → CheckState) (fi : FileInfo),
      filterKeeps input fi.file = false →
      (∀ g ∈ st.all_files, g.file_path = fi.file_path → g = fi) →
      ∀ row ∈ (filter_files input st).displayed.map (fun r => (r.1, ck r.1)),
        row.1.file_path ≠ fi.file_path := by
    intro st input ck fi hkeep hinj row hmem heq
    simp only [List.mem_map] at hmem
    obtain ⟨row0, hrow0, rfl⟩ := hmem
    simp only [filter_files, List.mem_map, List.mem_filter] at hrow0
    obtain ⟨g, ⟨hgmem, hgk⟩, rfl⟩ := hrow0
    have hgfi : g = fi := hinj g hgmem (by simpa using heq)
    rw [hgfi] at hgk
    exact absurd hgk (by simp [hkeep])
  refine ⟨part1, part2, ?_⟩
  intro env st input ck fi hkeep hinj
  constructor
  · intro l hl heq
    obtain ⟨row, hmem, _hchk, rfl⟩ := part1 _ _ _ hl
    exact hrow_src st input ck fi hkeep hinj row hmem (by simpa using heq)
  · intro m hm heq
    obtain ⟨row, hmem, _hchk, rfl⟩ := part2 _ _ _ hm
    exact hrow_src st input ck fi hkeep hinj row hmem heq

def c10Rec : FileInfo :=
  { file := "a.shp".data, file_path := "d/a.shp".data, file_mtime := [],
    root := "d".data, geometry_type := [], file_extension := ".shp".data }

def envPoint : Env :=
  { openGeom := fun _ => some "Point".data, mtimeStr := fun _ => [] }

theorem c10_load_displayed_only_witness :
    (∃ row, row ∈ [(c10Rec, CheckState.checked)] ∧ row.2 = CheckState.checked
      ∧ (c10Rec.file_path, basename c10Rec.file_path)
          = (row.1.file_path, basename row.1.file_path))
    ∧ (∃ row, row ∈ [(c10Rec, CheckState.checked)] ∧ row.2 = CheckState.checked
      ∧ c10Rec.file_path = row.1.file_path) :=
  ⟨c10_load_displayed_only.1 envPoint [(c10Rec, CheckState.checked)]
      (c10Rec.file_path, basename c10Rec.file_path) (by decide),
    c10_load_displayed_only.2.1 envNone [(c10Rec, CheckState.checked)]
      c10Rec.file_path (by decide)⟩

end IGadget
